import Mathlib

/-!
Verification of the AICI controller runtime declaration surface
(`py/pyaici/jssrc.py`, which embeds `aici-types.d.ts`) against its
natural-language specification.  The repository ships only the type
declarations of the controller; the behaviour of each operation is
modelled from the specification's description, faithful to its words,
and the properties claimed of the system are settled against these
models.
-/

/-- A token is an index into an external fixed vocabulary. -/
abbrev Token := Nat

/-- A splice: erase `backtrack` trailing tokens, then emit `ffTokens`,
then optionally `whenSampled` if the host samples from the resulting
position.  Fields transcribed from the `Splice` class declaration. -/
structure Splice where
  backtrack : Nat
  ffTokens : List Token
  whenSampled : List Token
deriving Repr, DecidableEq

/-- Modelled from the spec: `Splice.addSplice` (merge) is declared but its
body is absent from the repository.  Per §4.2, `merge(A, B)` combines two
splices applied in sequence: the merged backtrack is
`max(A.backtrack, A.backtrack + B.backtrack - |A.ffTokens|)` (here via
truncated subtraction on naturals), and the merged `ffTokens` is A's
forced tokens with B's backtrack applied against them (removing that many
trailing tokens) followed by B's forced tokens.  The trailing splice's
`whenSampled` survives the merge. -/
def Splice.addSplice (a b : Splice) : Splice :=
  { backtrack := a.backtrack + (b.backtrack - a.ffTokens.length)
    ffTokens := a.ffTokens.take (a.ffTokens.length - b.backtrack) ++ b.ffTokens
    whenSampled := b.whenSampled }

/-- C1: Splice merge is associative: for any three splices A, B, C applied
in sequence to the same base history, merging via repeated pairwise merge
yields the same splice regardless of grouping:
`merge(merge(A,B),C) = merge(A, merge(B,C))`. -/
theorem splice_merge_assoc (a b c : Splice) :
    (a.addSplice b).addSplice c = a.addSplice (b.addSplice c) := by
  unfold Splice.addSplice
  simp only [Splice.mk.injEq]
  refine ⟨?_, ?_, trivial⟩
  · simp only [List.length_append, List.length_take]
    omega
  · simp only [List.length_append, List.length_take,
      List.take_append_eq_append_take, List.take_take, List.append_assoc]
    congr 1
    · congr 1
      omega
    · congr 2
      omega

/-- C2: the merged backtrack equals
`max(A.backtrack, A.backtrack + B.backtrack - |A.ffTokens|)` (as integers,
i.e. clamped below by `A.backtrack`), and the merged `ffTokens` is A's
forced tokens with the last `min(B.backtrack, |A.ffTokens|)` of them
removed (B's backtrack applied against them) followed by B's forced
tokens. -/
theorem addSplice_spec (a b : Splice) :
    ((a.addSplice b).backtrack : Int) =
      max (a.backtrack : Int)
        ((a.backtrack : Int) + (b.backtrack : Int) - (a.ffTokens.length : Int)) ∧
    (a.addSplice b).ffTokens =
      a.ffTokens.take (a.ffTokens.length - min b.backtrack a.ffTokens.length)
        ++ b.ffTokens := by
  constructor
  · unfold Splice.addSplice
    simp only
    omega
  · unfold Splice.addSplice
    simp only [List.append_cancel_right_eq]
    congr 1
    omega

/-- Modelled from the spec: the native `TokenSet` class is declared but
implemented outside the repository.  Per §3 it is a boolean vector indexed
`0..vocabularySize-1`, true at indices of tokens in the set, with size
fixed at construction. -/
structure TokenSet where
  bits : List Bool
deriving Repr, DecidableEq

/-- Modelled from the spec: the constructor creates an empty set, with
`.length` set to the total number of tokens of the vocabulary. -/
def TokenSet.new (vocabSize : Nat) : TokenSet :=
  ⟨List.replicate vocabSize false⟩

/-- Number of all possible tokens (the fixed size of the vector). -/
def TokenSet.length (ts : TokenSet) : Nat :=
  ts.bits.length

/-- `add(t)`: mark token `t` as a member of the set. -/
def TokenSet.add (ts : TokenSet) (t : Token) : TokenSet :=
  ⟨ts.bits.set t true⟩

/-- `delete(t)` (the spec calls it `remove`): unmark token `t`. -/
def TokenSet.delete (ts : TokenSet) (t : Token) : TokenSet :=
  ⟨ts.bits.set t false⟩

/-- `has(t)`: membership test. -/
def TokenSet.has (ts : TokenSet) (t : Token) : Bool :=
  ts.bits.getD t false

/-- `clear()`: remove all tokens from the set. -/
def TokenSet.clear (ts : TokenSet) : TokenSet :=
  ⟨List.replicate ts.bits.length false⟩

/-- `setAll(value)`: include or exclude all tokens from the set. -/
def TokenSet.setAll (ts : TokenSet) (value : Bool) : TokenSet :=
  ⟨List.replicate ts.bits.length value⟩

/-- `numSet()`: number of tokens in the set. -/
def TokenSet.numSet (ts : TokenSet) : Nat :=
  ts.bits.count true

theorem count_set_le_succ (l : List Bool) (t : Nat) :
    (l.set t true).count true ≤ l.count true + 1 := by
  induction l generalizing t with
  | nil => simp
  | cons b bs ih =>
    cases t with
    | zero =>
      cases b <;> simp [List.count_cons]
    | succ t =>
      have := ih t
      cases b <;> simp [List.count_cons] <;> omega

/-- C6: after `add(t)`, `has(t)` is true and the count increases by at
most 1; after `delete(t)`, `has(t)` is false; the count never exceeds the
set's size N; and the size N, fixed at construction, is unchanged by
`add`, `delete`, `clear` and `setAll`. -/
theorem tokenSet_ops (ts : TokenSet) (t : Token) (v : Bool)
    (h : t < ts.length) :
    (ts.add t).has t = true ∧
    (ts.add t).numSet ≤ ts.numSet + 1 ∧
    (ts.delete t).has t = false ∧
    ts.numSet ≤ ts.length ∧
    (ts.add t).length = ts.length ∧
    (ts.delete t).length = ts.length ∧
    ts.clear.length = ts.length ∧
    (ts.setAll v).length = ts.length := by
  refine ⟨?_, ?_, ?_, ?_, ?_, ?_, ?_, ?_⟩
  · simp only [TokenSet.has, TokenSet.add]
    rw [List.getD_eq_getElem?_getD, List.getElem?_set_self]
    · rfl
    · exact h
  · exact count_set_le_succ ts.bits t
  · simp only [TokenSet.has, TokenSet.delete]
    rw [List.getD_eq_getElem?_getD, List.getElem?_set_self]
    · rfl
    · exact h
  · exact List.count_le_length true ts.bits
  · simp [TokenSet.length, TokenSet.add]
  · simp [TokenSet.length, TokenSet.delete]
  · simp [TokenSet.length, TokenSet.clear]
  · simp [TokenSet.length, TokenSet.setAll]

/-- Witness for C6: the operations evaluated on a concrete set of size 3. -/
theorem tokenSet_ops_witness :
    1 < (TokenSet.new 3).length ∧
    ((TokenSet.new 3).add 1).has 1 = true ∧
    ((TokenSet.new 3).add 1).numSet ≤ (TokenSet.new 3).numSet + 1 ∧
    ((TokenSet.new 3).delete 1).has 1 = false ∧
    (TokenSet.new 3).numSet ≤ (TokenSet.new 3).length ∧
    ((TokenSet.new 3).add 1).length = (TokenSet.new 3).length ∧
    ((TokenSet.new 3).delete 1).length = (TokenSet.new 3).length ∧
    (TokenSet.new 3).clear.length = (TokenSet.new 3).length ∧
    ((TokenSet.new 3).setAll true).length = (TokenSet.new 3).length := by
  have h : 1 < (TokenSet.new 3).length := by decide
  exact ⟨h, tokenSet_ops (TokenSet.new 3) 1 true h⟩

/-- C9: a freshly constructed TokenSet is empty: `has(t)` is false for
every token, `numSet()` is 0, and `length` equals the vocabulary size. -/
theorem tokenSet_new_empty (vocabSize : Nat) (t : Token) :
    (TokenSet.new vocabSize).has t = false ∧
    (TokenSet.new vocabSize).numSet = 0 ∧
    (TokenSet.new vocabSize).length = vocabSize := by
  refine ⟨?_, ?_, ?_⟩
  · simp only [TokenSet.has, TokenSet.new]
    rcases Nat.lt_or_ge t vocabSize with h | h
    · rw [List.getD_eq_getElem?_getD, List.getElem?_replicate_of_lt h]
      rfl
    · rw [List.getD_eq_getElem?_getD, List.getElem?_eq_none]
      · rfl
      · simpa using h
  · simp [TokenSet.numSet, TokenSet.new, List.count_replicate]
  · simp [TokenSet.length, TokenSet.new]

/-- A branch: one of several simultaneous candidate continuations, either
a set of splices or a sampling bias mask.  Fields transcribed from the
`Branch` class declaration. -/
structure Branch where
  splices : List Splice
  sampleMask : Option TokenSet
deriving Repr, DecidableEq

/-- Modelled from the spec: a Branch is a single (pure) splice iff it has
exactly one splice and no sampling mask. -/
def Branch.isSplice (b : Branch) : Bool :=
  b.splices.length == 1 && b.sampleMask.isNone

/-- The step result returned to the host: a skip flag plus an ordered
list of branches.  Fields transcribed from the `MidProcessResult` class
declaration. -/
structure MidProcessResult where
  skip_me : Bool
  branches : List Branch
deriving Repr, DecidableEq

/-- Modelled from the spec: a step result is a single splice iff it has
exactly one branch, that branch has exactly one splice, and no sampling
mask is present. -/
def MidProcessResult.isSplice (r : MidProcessResult) : Bool :=
  match r.branches with
  | [b] => b.isSplice
  | _ => false

/-- Modelled from the spec: the static `MidProcessResult.splice` builder
returns a result with a single branch holding the one given splice and no
sampling mask. -/
def MidProcessResult.splice (backtrack : Nat) (ff_tokens : List Token) :
    MidProcessResult :=
  { skip_me := false
    branches := [⟨[⟨backtrack, ff_tokens, []⟩], none⟩] }

/-- A label records the history length (position) at its creation.
Field transcribed from the `Label` class declaration. -/
structure Label where
  ptr : Nat
deriving Repr, DecidableEq

/-- The `FixedTokens` request: its tokenized text and optional following
label, transcribed from the `FixedTokens` class declaration. -/
structure FixedTokens where
  fixedTokens : List Token
  following : Option Label
deriving Repr, DecidableEq

/-- Modelled from the spec: `FixedTokens(text, following)` stores the
tokenization of `text` (via the external `encode`) and the label. -/
def FixedTokens.make (encode : String → List Token) (text : String)
    (following : Option Label) : FixedTokens :=
  ⟨encode text, following⟩

/-- Modelled from the spec: `isFixed()` is true for `FixedTokens`. -/
def FixedTokens.isFixed (_ : FixedTokens) : Bool :=
  true

/-- Modelled from the spec: `FixedTokens.compile()` (`midProcess`) returns
a pure splice whose backtrack is the distance from the current position
back to the following label (0 if no label is set) and whose `ffTokens`
is the tokenized text. -/
def FixedTokens.midProcess (f : FixedTokens) (currentHistoryLength : Nat) :
    MidProcessResult :=
  MidProcessResult.splice
    (match f.following with
      | none => 0
      | some l => currentHistoryLength - l.ptr)
    f.fixedTokens

/-- A toy injective tokenizer used for concrete witnesses: each character
becomes one token, its code point. -/
def charEncode (s : String) : List Token :=
  s.data.map Char.toNat

/-- C3: `FixedTokens(text).compile()` is a pure splice with `backtrack=0`
and `ffTokens = encode(text)` when no following label is set; with a
following label recorded at history length `lab.ptr ≤ hist`, the
backtrack is `hist - lab.ptr` (exactly: adding `lab.ptr` back gives
`hist`); and `isFixed()` is true. -/
theorem fixedTokens_compile (encode : String → List Token) (text : String)
    (hist : Nat) (lab : Label) (h : lab.ptr ≤ hist) :
    ((FixedTokens.make encode text none).midProcess hist).isSplice = true ∧
    ((FixedTokens.make encode text none).midProcess hist).branches =
      [⟨[⟨0, encode text, []⟩], none⟩] ∧
    ((FixedTokens.make encode text (some lab)).midProcess hist).isSplice
      = true ∧
    ((FixedTokens.make encode text (some lab)).midProcess hist).branches =
      [⟨[⟨hist - lab.ptr, encode text, []⟩], none⟩] ∧
    (hist - lab.ptr) + lab.ptr = hist ∧
    (FixedTokens.make encode text none).isFixed = true := by
  refine ⟨rfl, rfl, rfl, rfl, ?_, rfl⟩
  omega

/-- Witness for C3: the compile result at the concrete text "Hi", history
length 5 and a label recorded at history length 3. -/
theorem fixedTokens_compile_witness :
    (Label.mk 3).ptr ≤ 5 ∧
    (((FixedTokens.make charEncode "Hi" none).midProcess 5).isSplice = true ∧
    ((FixedTokens.make charEncode "Hi" none).midProcess 5).branches =
      [⟨[⟨0, charEncode "Hi", []⟩], none⟩] ∧
    ((FixedTokens.make charEncode "Hi" (some (Label.mk 3))).midProcess 5).isSplice
      = true ∧
    ((FixedTokens.make charEncode "Hi" (some (Label.mk 3))).midProcess 5).branches =
      [⟨[⟨5 - (Label.mk 3).ptr, charEncode "Hi", []⟩], none⟩] ∧
    (5 - (Label.mk 3).ptr) + (Label.mk 3).ptr = 5 ∧
    (FixedTokens.make charEncode "Hi" none).isFixed = true) :=
  ⟨by decide, fixedTokens_compile charEncode "Hi" 5 (Label.mk 3) (by decide)⟩

/-- The kinds of per-step requests a user program can issue, after the
`NextToken` subtypes declared in the interface: fixed tokens, a
constrained sampling token, or a stop token. -/
inductive ReqK where
  | fixedR (ff : List Token)
  | constrainedR
  | stopR
deriving Repr, DecidableEq

/-- Modelled from the spec: the driver state of `AiciAsync` (whose method
bodies are absent from the repository): the `finished` flag of the
current request chain, the upcoming requests of the user program, and the
single pending request. -/
structure DriverState where
  finished : Bool
  program : List ReqK
  pending : Option ReqK
deriving Repr, DecidableEq

/-- Observable events of a driver run: a request being compiled, or a
request being committed. -/
inductive Ev where
  | compileEv (r : ReqK)
  | commitEv (r : ReqK)
deriving Repr, DecidableEq

/-- Modelled from the spec: in `step`, a pending uncommitted request is
committed first; a StopToken's commit sets `finished = true`. -/
def commitPending (s : DriverState) : DriverState × List Ev :=
  match s.pending with
  | none => (s, [])
  | some r =>
    ({ s with pending := none,
              finished := s.finished || (r == ReqK.stopR) }, [Ev.commitEv r])

/-- Modelled from the spec: after the commit, the driver compiles the next
pending request; a finished sequence compiles no further request, and a
program that ends without an explicit StopToken is treated as finished
with no further requests to compile. -/
def compileNext (s : DriverState) : DriverState × List Ev :=
  if s.finished then (s, [])
  else
    match s.program with
    | [] => ({ s with finished := true }, [])
    | r :: rest =>
      ({ s with program := rest, pending := some r }, [Ev.compileEv r])

/-- One host `step` call: commit the pending request, then compile the
next one. -/
def driverStep (s : DriverState) : DriverState × List Ev :=
  ((compileNext (commitPending s).1).1,
    (commitPending s).2 ++ (compileNext (commitPending s).1).2)

/-- The event trace of `n` consecutive host `step` calls. -/
def driverRun (s : DriverState) : Nat → List Ev
  | 0 => []
  | n + 1 => (driverStep s).2 ++ driverRun (driverStep s).1 n

theorem compileNext_events (s : DriverState) (e : Ev)
    (he : e ∈ (compileNext s).2) : ∃ r, e = Ev.compileEv r := by
  unfold compileNext at he
  split at he
  · simp at he
  · split at he
    · simp at he
    · simp only [List.mem_singleton] at he
      exact ⟨_, he⟩

theorem driverRun_finished (s : DriverState) (hf : s.finished = true)
    (hp : s.pending = none) : ∀ n, driverRun s n = [] := by
  intro n
  induction n with
  | zero => rfl
  | succ n ih =>
    have hstep : driverStep s = (s, []) := by
      simp [driverStep, commitPending, compileNext, hp, hf]
    simp only [driverRun, hstep]
    simpa using ih

/-- C4: once a StopToken's commit has run (the step whose event list
contains the stop commit), no subsequent request is ever compiled for
that sequence: the stop-committing step emits nothing beyond the stop
commit itself, and every later step emits no compile event, for any
number of further host steps. -/
theorem stopToken_blocks_compile (s : DriverState)
    (h : Ev.commitEv ReqK.stopR ∈ (driverStep s).2) :
    (driverStep s).2 = [Ev.commitEv ReqK.stopR] ∧
    ∀ n r, Ev.compileEv r ∉ driverRun (driverStep s).1 n := by
  cases hp : s.pending with
  | none =>
    exfalso
    simp only [driverStep, commitPending, hp, List.nil_append] at h
    obtain ⟨r, hr⟩ := compileNext_events _ _ h
    exact Ev.noConfusion hr
  | some r =>
    have hr : r = ReqK.stopR := by
      simp only [driverStep, commitPending, hp, List.cons_append,
        List.nil_append, List.mem_cons] at h
      rcases h with h | h
      · cases h
        rfl
      · obtain ⟨r', hr'⟩ := compileNext_events _ _ h
        exact absurd hr' (by simp)
    subst hr
    have hstep : driverStep s =
        ({ s with pending := none, finished := true }, [Ev.commitEv ReqK.stopR]) := by
      simp [driverStep, commitPending, compileNext, hp]
    refine ⟨by rw [hstep], ?_⟩
    intro n r
    rw [hstep, driverRun_finished _ rfl rfl n]
    simp

/-- Witness for C4: a driver with a pending StopToken and further program
requests behind it; its step emits only the stop commit and no later step
compiles anything. -/
theorem stopToken_blocks_compile_witness :
    Ev.commitEv ReqK.stopR ∈
      (driverStep ⟨false, [ReqK.fixedR [1]], some ReqK.stopR⟩).2 ∧
    ((driverStep ⟨false, [ReqK.fixedR [1]], some ReqK.stopR⟩).2 =
      [Ev.commitEv ReqK.stopR] ∧
    ∀ n r, Ev.compileEv r ∉
      driverRun (driverStep ⟨false, [ReqK.fixedR [1]], some ReqK.stopR⟩).1 n) :=
  ⟨by decide,
    stopToken_blocks_compile ⟨false, [ReqK.fixedR [1]], some ReqK.stopR⟩
      (by decide)⟩

/-- The choose-from-options constraint: a position `ptr` into the
committed output and the list of (tokenized) options still compatible
with it.  Fields transcribed from the `ChooseConstraint` class
declaration. -/
structure ChooseConstraint where
  ptr : Nat
  options : List (List Token)
deriving Repr, DecidableEq

/-- Modelled from the spec: `choose(options)` tokenizes each option (via
the external `encode`) and starts at position 0. -/
def ChooseConstraint.make (encode : String → List Token)
    (opts : List String) : ChooseConstraint :=
  ⟨0, opts.map encode⟩

/-- Modelled from the spec: a token is allowed iff it extends the realized
output towards one of the still-compatible options, i.e. some surviving
option has that token at the current position. -/
def ChooseConstraint.tokenAllowed (c : ChooseConstraint) (t : Token) : Bool :=
  c.options.any (fun o => o[c.ptr]? == some t)

/-- Modelled from the spec: appending a realized token keeps only the
options consistent with it and advances the position. -/
def ChooseConstraint.appendToken (c : ChooseConstraint) (t : Token) :
    ChooseConstraint :=
  ⟨c.ptr + 1, c.options.filter (fun o => o[c.ptr]? == some t)⟩

/-- Modelled from the spec: the constraint allows ending iff some
surviving option is fully consumed. -/
def ChooseConstraint.eosAllowed (c : ChooseConstraint) : Bool :=
  c.options.any (fun o => o.length == c.ptr)

/-- Modelled from the spec: the constraint forces ending iff the committed
output equals an option exactly — in state terms, some option survives
and every surviving option is fully consumed at the current position. -/
def ChooseConstraint.eosForced (c : ChooseConstraint) : Bool :=
  !c.options.isEmpty && c.options.all (fun o => o.length == c.ptr)

/-- Replaying a committed token sequence through `appendToken`. -/
def ChooseConstraint.applyTokens (c : ChooseConstraint) (s : List Token) :
    ChooseConstraint :=
  s.foldl ChooseConstraint.appendToken c

theorem prefix_snoc_iff (s : List Token) (t : Token) (o : List Token) :
    s ++ [t] <+: o ↔ s <+: o ∧ o[s.length]? = some t := by
  constructor
  · rintro ⟨r, hr⟩
    subst hr
    refine ⟨⟨t :: r, by simp⟩, ?_⟩
    rw [List.append_assoc, List.getElem?_append_right le_rfl]
    simp
  · rintro ⟨⟨r, hr⟩, hg⟩
    subst hr
    rw [List.getElem?_append_right le_rfl] at hg
    simp only [Nat.sub_self] at hg
    cases r with
    | nil => simp at hg
    | cons a r' =>
      simp only [List.getElem?_cons_zero, Option.some.injEq] at hg
      subst hg
      exact ⟨r', by simp⟩

theorem applyTokens_filter (opts : List (List Token)) (s : List Token) :
    ChooseConstraint.applyTokens ⟨0, opts⟩ s =
      ⟨s.length, opts.filter (fun o => decide (s <+: o))⟩ := by
  induction s using List.reverseRecOn with
  | nil =>
    unfold ChooseConstraint.applyTokens
    simp only [List.foldl_nil, List.length_nil, List.nil_prefix,
      decide_True, List.filter_true]
  | append_singleton l t ih =>
    unfold ChooseConstraint.applyTokens at ih ⊢
    rw [List.foldl_append]
    rw [ih]
    simp only [List.foldl_cons, List.foldl_nil, ChooseConstraint.appendToken,
      List.filter_filter]
    refine congrArg₂ _ (by simp) ?_
    apply List.filter_congr
    intro o _
    have : l ++ [t] <+: o ↔ l <+: o ∧ o[l.length]? = some t :=
      prefix_snoc_iff l t o
    rw [Bool.eq_iff_iff]
    simp only [Bool.and_eq_true, beq_iff_eq, decide_eq_true_eq, this]
    tauto

theorem prefix_length_eq (s o : List Token) (h : s <+: o)
    (hl : o.length = s.length) : s = o := by
  obtain ⟨r, hr⟩ := h
  subst hr
  simp only [List.length_append] at hl
  have hr0 : r = [] := List.eq_nil_of_length_eq_zero (by omega)
  subst hr0
  simp

/-- The concrete `choose(["cat","dog"])` constraint under the toy
character tokenizer. -/
def catDog : ChooseConstraint :=
  ChooseConstraint.make charEncode ["cat", "dog"]

/-- C5: for `choose(["cat","dog"])`, after any committed token sequence
`s`, a candidate token `t` is allowed exactly when the realized output
`s ++ [t]` is still a prefix of the tokenization of "cat" or of "dog"
(so any token whose realized prefix matches neither is rejected), and
`eosForced()` is true exactly when the committed output equals "cat" or
"dog" exactly. -/
theorem choose_cat_dog (s : List Token) (t : Token) :
    (ChooseConstraint.tokenAllowed (catDog.applyTokens s) t = true ↔
      s ++ [t] <+: charEncode "cat" ∨ s ++ [t] <+: charEncode "dog") ∧
    (ChooseConstraint.eosForced (catDog.applyTokens s) = true ↔
      s = charEncode "cat" ∨ s = charEncode "dog") := by
  have hmk : catDog = ⟨0, [charEncode "cat", charEncode "dog"]⟩ := rfl
  rw [hmk, applyTokens_filter]
  constructor
  · simp only [ChooseConstraint.tokenAllowed, List.any_eq_true,
      List.mem_filter, decide_eq_true_eq, beq_iff_eq, List.mem_cons,
      List.not_mem_nil, or_false]
    constructor
    · rintro ⟨o, ⟨ho, hpre⟩, hget⟩
      have hsnoc : s ++ [t] <+: o := (prefix_snoc_iff s t o).mpr ⟨hpre, hget⟩
      rcases ho with rfl | rfl
      · exact Or.inl hsnoc
      · exact Or.inr hsnoc
    · rintro (h | h)
      · obtain ⟨hpre, hget⟩ := (prefix_snoc_iff s t _).mp h
        exact ⟨charEncode "cat", ⟨Or.inl rfl, hpre⟩, hget⟩
      · obtain ⟨hpre, hget⟩ := (prefix_snoc_iff s t _).mp h
        exact ⟨charEncode "dog", ⟨Or.inr rfl, hpre⟩, hget⟩
  · constructor
    · intro hf
      simp only [ChooseConstraint.eosForced, Bool.and_eq_true,
        Bool.not_eq_true', List.all_eq_true, beq_iff_eq] at hf
      obtain ⟨hne, hall⟩ := hf
      have hne' : [charEncode "cat", charEncode "dog"].filter
          (fun o => decide (s <+: o)) ≠ [] := by
        intro h
        rw [h] at hne
        simp at hne
      obtain ⟨o, ho⟩ := List.exists_mem_of_ne_nil _ hne'
      have hlen := hall o ho
      rw [List.mem_filter] at ho
      obtain ⟨hmem, hpre⟩ := ho
      rw [decide_eq_true_eq] at hpre
      have : s = o := prefix_length_eq s o hpre hlen
      subst this
      simpa using hmem
    · rintro (rfl | rfl)
      · decide
      · decide

/-- Modelled from the spec: the process-wide variable store, a mapping
from name to byte value (bytes as naturals); `set` is last-writer-wins. -/
structure VarStore where
  entries : List (String × List Nat)
deriving Repr, DecidableEq

/-- `getVar`: the current value of a shared variable, or absent. -/
def VarStore.getVar (st : VarStore) (n : String) : Option (List Nat) :=
  (st.entries.find? (fun e => e.1 == n)).map (fun e => e.2)

/-- `setVar`: overwrite (last writer wins, so the new entry shadows). -/
def VarStore.setVar (st : VarStore) (n : String) (v : List Nat) : VarStore :=
  ⟨(n, v) :: st.entries⟩

/-- The state of a user program suspended on `waitVars`: the shared store
and the names still awaited (`none` once resumed past the await point). -/
structure WaitState where
  store : VarStore
  waiting : Option (List String)
deriving Repr, DecidableEq

/-- What the host does between step boundaries: make a variable
available, or nothing. -/
inductive HostOp where
  | hset (n : String) (v : List Nat)
  | tick
deriving Repr, DecidableEq

/-- Every named variable has a present value. -/
def allPresent (st : VarStore) (ns : List String) : Bool :=
  ns.all (fun n => (st.getVar n).isSome)

/-- The host-side store update of one step. -/
def hostApply (st : VarStore) (op : HostOp) : VarStore :=
  match op with
  | .hset n v => st.setVar n v
  | .tick => st

/-- Modelled from the spec: one host step boundary for a program suspended
on `waitVars`: the store is updated by the host, then the program is
resumed past the await point iff every named variable has a present
value; otherwise it stays suspended, yielding a no-op step. -/
def waitStep (s : WaitState) (op : HostOp) : WaitState :=
  match s.waiting with
  | some ns =>
    if allPresent (hostApply s.store op) ns then ⟨hostApply s.store op, none⟩
    else ⟨hostApply s.store op, some ns⟩
  | none => ⟨hostApply s.store op, none⟩

/-- A run of host steps. -/
def waitRun (s : WaitState) (ops : List HostOp) : WaitState :=
  ops.foldl waitStep s

/-- C7: `waitVars("a","b")` never resolves while `getVar("a")` or
`getVar("b")` is absent: at every step of every run, if the program is
still suspended on the two names and the next step resumes it past the
await point, then both variables have a present value at that point. -/
theorem waitVars_resolves_only_when_present (s0 : WaitState)
    (ops : List HostOp) (op : HostOp)
    (hw : (waitRun s0 ops).waiting = some ["a", "b"])
    (hr : (waitStep (waitRun s0 ops) op).waiting = none) :
    ((waitStep (waitRun s0 ops) op).store.getVar "a").isSome = true ∧
    ((waitStep (waitRun s0 ops) op).store.getVar "b").isSome = true := by
  have hall : allPresent (hostApply (waitRun s0 ops).store op)
      ["a", "b"] = true := by
    by_contra hno
    simp only [waitStep, hw] at hr
    rw [if_neg hno] at hr
    simp at hr
  simp only [waitStep, hw, if_pos hall]
  simp only [allPresent, List.all_cons, List.all_nil, Bool.and_true,
    Bool.and_eq_true] at hall
  exact hall

/-- Witness for C7: the host makes "a" available on one step and "b" on
the next; only the second step resumes the program, and both variables
are then present. -/
theorem waitVars_resolves_only_when_present_witness :
    (waitRun ⟨⟨[]⟩, some ["a", "b"]⟩ [HostOp.hset "a" [1]]).waiting
      = some ["a", "b"] ∧
    (waitStep (waitRun ⟨⟨[]⟩, some ["a", "b"]⟩ [HostOp.hset "a" [1]])
      (HostOp.hset "b" [2])).waiting = none ∧
    (((waitStep (waitRun ⟨⟨[]⟩, some ["a", "b"]⟩ [HostOp.hset "a" [1]])
        (HostOp.hset "b" [2])).store.getVar "a").isSome = true ∧
      ((waitStep (waitRun ⟨⟨[]⟩, some ["a", "b"]⟩ [HostOp.hset "a" [1]])
        (HostOp.hset "b" [2])).store.getVar "b").isSome = true) :=
  ⟨by decide, by decide,
    waitVars_resolves_only_when_present ⟨⟨[]⟩, some ["a", "b"]⟩
      [HostOp.hset "a" [1]] (HostOp.hset "b" [2]) (by decide) (by decide)⟩

/-- A JavaScript regular expression object, as far as the declared
interface observes it: its source pattern.  The `regex` field of
`GenOptions` is declared `string | RegExp`. -/
structure RegExp where
  source : String
deriving Repr, DecidableEq

/-- The `GenOptions` configuration interface, fields transcribed from its
declaration in the source, in declaration order; every field is
optional. -/
structure GenOptions where
  options : Option (List String) := none
  regex : Option (String ⊕ RegExp) := none
  yacc : Option String := none
  substring : Option String := none
  substringEnd : Option String := none
  storeVar : Option String := none
  stopAt : Option String := none
  maxTokens : Option Nat := none
deriving Repr, DecidableEq

/-- The field names declared on the `GenOptions` interface, in source
order. -/
def genOptionsFields : List String :=
  ["options", "regex", "yacc", "substring", "substringEnd", "storeVar",
    "stopAt", "maxTokens"]

/-- The recognized-field set the spec claims for the convenience generate
operation. -/
def claimedGenFields : List String :=
  ["options", "regex", "substring", "substringEnd", "storeVar", "stopAt",
    "maxTokens"]

/-- The names of the fields a configuration value actually uses, i.e.
sets to a present value. -/
def GenOptions.usedFields (o : GenOptions) : List String :=
  (if o.options.isSome then ["options"] else []) ++
  (if o.regex.isSome then ["regex"] else []) ++
  (if o.yacc.isSome then ["yacc"] else []) ++
  (if o.substring.isSome then ["substring"] else []) ++
  (if o.substringEnd.isSome then ["substringEnd"] else []) ++
  (if o.storeVar.isSome then ["storeVar"] else []) ++
  (if o.stopAt.isSome then ["stopAt"] else []) ++
  (if o.maxTokens.isSome then ["maxTokens"] else [])

/-- A configuration using only the yacc grammar field — a valid
`GenOptions` value per the source declaration. -/
def yaccOnlyConfig : GenOptions :=
  { yacc := some "grammar" }

/-- C8 counterexample: the source `GenOptions` interface also declares a
`yacc` field, so the yacc-only configuration is accepted yet uses a field
outside the claimed seven-field set; the claimed field set is not
exhaustive. -/
theorem genOptions_fields_counterexample :
    yaccOnlyConfig.usedFields = ["yacc"] ∧
    "yacc" ∈ genOptionsFields ∧
    "yacc" ∉ claimedGenFields ∧
    ¬ (∀ f ∈ genOptionsFields, f ∈ claimedGenFields) := by
  decide

/-- C8 amended: the generate configuration recognizes exactly the fields
`options, regex, yacc, substring, substringEnd, storeVar, stopAt,
maxTokens`: every configuration uses only fields from the declared set,
and that set is the claimed one extended by `yacc`. -/
theorem genOptions_fields_amended (o : GenOptions) :
    (∀ f ∈ o.usedFields, f ∈ genOptionsFields) ∧
    (∀ f ∈ genOptionsFields, f ∈ claimedGenFields ∨ f = "yacc") := by
  constructor
  · intro f hf
    unfold GenOptions.usedFields at hf
    simp only [List.mem_append] at hf
    rcases hf with ((((((hf | hf) | hf) | hf) | hf) | hf) | hf) | hf <;>
      · split at hf <;> simp_all [genOptionsFields]
  · decide

/-- Witness for C8's amended theorem: the field-set containment at the
concrete yacc-only configuration. -/
theorem genOptions_fields_amended_witness :
    (∀ f ∈ yaccOnlyConfig.usedFields, f ∈ genOptionsFields) ∧
    (∀ f ∈ genOptionsFields, f ∈ claimedGenFields ∨ f = "yacc") :=
  genOptions_fields_amended yaccOnlyConfig

/-- Modelled from the spec: the pattern the generate loop hands to the
regex constraint factory: a plain-string regex field is the pattern
itself, a RegExp object contributes its source pattern. -/
def GenOptions.regexPattern (o : GenOptions) : Option String :=
  o.regex.map (fun r =>
    match r with
    | Sum.inl s => s
    | Sum.inr re => re.source)

/-- The configuration of the example program's call of gen with the
regular-expression literal for two digits. -/
def helloRegexArg : GenOptions :=
  { regex := some (Sum.inr ⟨"\\d\\d"⟩) }

/-- C10: the `regex` field of the generate configuration admits a RegExp
object, not only a string: any RegExp yields a valid configuration whose
constraint pattern is the RegExp's source, and the example program's
argument — regex set to the RegExp for two digits — is such a
configuration with pattern `\d\d`. -/
theorem gen_accepts_regexp (re : RegExp) :
    GenOptions.regexPattern { regex := some (Sum.inr re) } = some re.source ∧
    helloRegexArg.regex = some (Sum.inr ⟨"\\d\\d"⟩) ∧
    helloRegexArg.regexPattern = some "\\d\\d" :=
  ⟨rfl, rfl, rfl⟩
